import Mathlib

/-!
Shallow embedding of the Task-Dependency-Visualizer application
(`src/app.py`): job parsing, dependency validation, dependency-graph
construction, topological layering, and the presentation pipeline.

Machine strings are Lean `String`s; Python's `str.split(',')` and
`str.strip()` are embedded as executable character-list functions
(`pySplit`, `pyStrip`) so that concrete instances reduce in the kernel.
Python dictionaries are embedded as association lists in insertion order
(`dictSet` overwrites in place, as CPython dicts keep the original slot
of a reassigned key; `alistGet` looks a key up).

`networkx.DiGraph` is embedded as a pair of lists kept duplicate-free by
the `add_node` / `add_edge` operations, matching `DiGraph`'s behaviour
that re-adding an existing node or edge leaves the graph unchanged.
`nx.topological_sort` yields some topological order of the nodes and
raises `NetworkXUnfeasible` when none exists; it is embedded as a
repeated-source-removal routine (`topoSortAux`) — the tie-breaking order
among simultaneously available sources differs from networkx's
generator, which the app's semantics never depend on (layer values are
determined by the graph alone, and the spec leaves tie order undefined).
`random.shuffle` of the colour palette is presentation-only
nondeterminism and is not modelled; positions and labels, the
deterministic outputs of `draw_layered_graph`, are.
-/

namespace TaskViz

/-- Embedding of Python `str.split(sep)` at the character level: `cur`
accumulates the current token in reverse. `"".split(',') = [""]` and a
trailing separator yields a trailing empty token, as in Python. -/
def pySplitAux (sep : Char) : List Char → List Char → List (List Char)
  | [], cur => [cur.reverse]
  | c :: cs, cur =>
    if c = sep then cur.reverse :: pySplitAux sep cs []
    else pySplitAux sep cs (c :: cur)

/-- Embedding of Python `s.split(sep)` for a one-character separator. -/
def pySplit (s : String) (sep : Char) : List String :=
  (pySplitAux sep s.data []).map String.mk

/-- Embedding of Python `str.strip()`: drop leading and trailing
whitespace characters. -/
def pyStrip (s : String) : String :=
  String.mk (((s.data.dropWhile Char.isWhitespace).reverse.dropWhile
    Char.isWhitespace).reverse)

/-- Joining a token list with a separator character, at the character
level (used to state that `pySplit` is an exact comma splitting). -/
def joinSepL (sep : Char) : List (List Char) → List Char
  | [] => []
  | [x] => x
  | x :: y :: ys => x ++ sep :: joinSepL sep (y :: ys)

/-- Embedding of Python `sep.join(tokens)` on strings. -/
def joinSep (sep : String) : List String → String
  | [] => ""
  | [x] => x
  | x :: y :: ys => x ++ sep ++ joinSep sep (y :: ys)

/-- Association-list lookup, embedding Python `d[k]` / `d.get(k)`:
first binding wins (keys are kept unique by `dictSet`). -/
def alistGet {α : Type} (d : List (String × α)) (k : String) : Option α :=
  match d with
  | [] => none
  | (k', v) :: d' => if k' = k then some v else alistGet d' k

/-- Association-list update, embedding Python `d[k] = v`: an existing
key is overwritten in place (CPython dicts keep the slot of a
reassigned key); a new key is appended. -/
def dictSet {α : Type} : List (String × α) → String → α → List (String × α)
  | [], k, v => [(k, v)]
  | e :: d, k, v => if e.1 = k then (k, v) :: d else e :: dictSet d k v

/-- Row of the edited jobs table after `main`'s `dropna` on ID and Name:
ID and Name are present, the Dependencies cell may still be missing. -/
structure Row where
  jobId : String
  jobName : String
  depText : Option String
deriving DecidableEq

/-- Raw row of the edited jobs table as produced by the data editor:
any cell may be missing. -/
structure RawRow where
  rowId : Option String
  rowName : Option String
  rowDeps : Option String
deriving DecidableEq

/-- One parsed job: `(job_id, job_name, dependencies)` as built by
`process_jobs_from_input`. -/
abbrev Job := String × String × List String

/-- Embedding of the dependency-cell expression shared by
`process_jobs_from_input` (line 20) and `validate_dependencies`
(line 30): `row["Dependencies"].split(',') if row["Dependencies"] else []`.
A missing cell and the empty string are both falsy, yielding `[]`. -/
def splitDeps : Option String → List String
  | none => []
  | some s => if s = "" then [] else pySplit s ','

/-- Embedding of `process_jobs_from_input` (src/app.py lines 15-22). -/
def process_jobs_from_input (rows : List Row) : List Job :=
  rows.map (fun r => (r.jobId, r.jobName, splitDeps r.depText))

/-- Job-ID column of the table; `validate_dependencies` builds
`set(jobs_df["ID"])`, whose membership test agrees with list
membership. -/
def job_ids_of (rows : List Row) : List String :=
  rows.map (fun r => r.jobId)

/-- Embedding of the comprehension on src/app.py line 32:
`[dep.strip() for dep in dependencies if dep.strip() not in job_ids]`. -/
def invalidDepsOf (jobIds : List String) (r : Row) : List String :=
  (splitDeps r.depText).filterMap (fun dep =>
    let d := pyStrip dep
    if d ∈ jobIds then none else some d)

/-- One iteration of the row loop of `validate_dependencies`. -/
def valStep (jobIds : List String) (acc : List (String × List String))
    (r : Row) : List (String × List String) :=
  let invalid := invalidDepsOf jobIds r
  if invalid = [] then acc else dictSet acc r.jobId invalid

/-- Embedding of `validate_dependencies` (src/app.py lines 24-36). -/
def validate_dependencies (rows : List Row) : List (String × List String) :=
  rows.foldl (valStep (job_ids_of rows)) []

/-- Embedding of a `networkx.DiGraph` as used by the app: node list in
insertion order, edge list in insertion order; both duplicate-free. -/
structure DiGraph where
  nodes : List String
  edges : List (String × String)
deriving DecidableEq

/-- Embedding of `G.add_node(v)`: a no-op when the node exists. -/
def addNode (G : DiGraph) (v : String) : DiGraph :=
  if v ∈ G.nodes then G else ⟨G.nodes ++ [v], G.edges⟩

/-- Embedding of `G.add_edge(u, v)`: missing endpoints are added as
nodes; re-adding an existing edge is a no-op. -/
def addEdge (G : DiGraph) (u v : String) : DiGraph :=
  let G1 := addNode (addNode G u) v
  if (u, v) ∈ G1.edges then G1 else ⟨G1.nodes, G1.edges ++ [(u, v)]⟩

/-- One iteration of the inner dependency loop of
`build_dependency_graph` (src/app.py lines 46-48): the raw token is
used untrimmed, and only the token equal to the empty string is
skipped (`if dep:`). -/
def depStep (jid : String) (g : DiGraph) (dep : String) : DiGraph :=
  if dep = "" then g else addEdge g dep jid

/-- One iteration of the job loop of `build_dependency_graph`
(src/app.py lines 42-48). -/
def addJob (acc : DiGraph × List (String × String)) (j : Job) :
    DiGraph × List (String × String) :=
  let nm := dictSet acc.2 j.1 j.2.1
  let g := addNode acc.1 j.1
  (j.2.2.foldl (depStep j.1) g, nm)

/-- Embedding of `build_dependency_graph` (src/app.py lines 38-49),
returning the graph and the `job_id_to_name` mapping. -/
def build_dependency_graph (jobs : List Job) :
    DiGraph × List (String × String) :=
  jobs.foldl addJob (⟨[], []⟩, [])

/-- Direct predecessors of `v`, embedding `G.predecessors(v)`: sources
of the stored edges into `v` (each once, since the edge list is kept
duplicate-free). -/
def preds (G : DiGraph) (v : String) : List String :=
  (G.edges.filter (fun e => e.2 = v)).map Prod.fst

/-- Embedding of `G.in_degree(v)`. -/
def inDegree (G : DiGraph) (v : String) : Nat :=
  (preds G v).length

/-- Some node of `rem` with no predecessor remaining in `rem`, if any:
the next node `nx.topological_sort` can emit. -/
def pickSource (G : DiGraph) (rem : List String) : Option String :=
  rem.find? (fun v => decide (∀ p ∈ preds G v, p ∉ rem))

/-- Repeated source removal producing a topological order of `rem`, or
`none` when the remaining nodes contain a cycle. The fuel equals the
number of nodes at the top-level call. -/
def topoSortAux (G : DiGraph) : Nat → List String → Option (List String)
  | 0, rem => if rem.isEmpty then some [] else none
  | fuel + 1, rem =>
    match pickSource G rem with
    | none => if rem.isEmpty then some [] else none
    | some v => (topoSortAux G fuel (rem.erase v)).map (fun l => v :: l)

/-- Embedding of iterating `nx.topological_sort(G)`: some topological
order of the nodes, or the `NetworkXUnfeasible` error on a cycle. -/
def nx_topological_sort (G : DiGraph) : Except String (List String) :=
  match topoSortAux G G.nodes.length G.nodes with
  | some l => Except.ok l
  | none => Except.error "Graph contains a cycle or graph changed during iteration"

/-- Sequencing of option-valued lookups, embedding that the Python list
comprehension `[layers[pred] for pred in ...]` raises `KeyError` as
soon as one key is missing. -/
def optMapM {α β : Type} (f : α → Option β) : List α → Option (List β)
  | [] => some []
  | x :: xs =>
    match f x, optMapM f xs with
    | some y, some ys => some (y :: ys)
    | _, _ => none

/-- Maximum of a list of naturals (Python `max` over a nonempty list of
nonnegative values). -/
def maxNat (l : List Nat) : Nat := l.foldl max 0

/-- One iteration of the loop of `assign_layers` (src/app.py lines
53-57): a source gets layer 0, any other node one more than the
maximum layer of its predecessors (whose layers a genuine topological
order has already assigned). -/
def layerStep (G : DiGraph) (acc : Except String (List (String × Nat)))
    (v : String) : Except String (List (String × Nat)) :=
  match acc with
  | Except.error e => Except.error e
  | Except.ok layers =>
    if inDegree G v = 0 then Except.ok (layers ++ [(v, 0)])
    else
      match optMapM (alistGet layers) (preds G v) with
      | none => Except.error "KeyError"
      | some ls => Except.ok (layers ++ [(v, maxNat ls + 1)])

/-- Embedding of `assign_layers` (src/app.py lines 51-58): the layer
dictionary in insertion order, or the topological-sort error. -/
def assign_layers (G : DiGraph) : Except String (List (String × Nat)) :=
  match nx_topological_sort G with
  | Except.error e => Except.error e
  | Except.ok ord => ord.foldl (layerStep G) (Except.ok [])

/-- Position of the first occurrence of `v` in a list (length of the
list when absent). -/
def idxOf (v : String) : List String → Nat
  | [] => 0
  | x :: xs => if x = v then 0 else idxOf v xs + 1

/-- A topological order of the graph: the nodes, each exactly once, with
every stored edge pointing forward. -/
def IsTopoOrder (G : DiGraph) (l : List String) : Prop :=
  l.Nodup ∧ (∀ v, v ∈ l ↔ v ∈ G.nodes) ∧
    ∀ u v, (u, v) ∈ G.edges → idxOf u l < idxOf v l

/-- Layout orientations offered by the selector (src/app.py line 131). -/
inductive Orientation
  | TB
  | BT
  | LR
  | RL
deriving DecidableEq

/-- Coordinates computed by `draw_layered_graph` (src/app.py lines
64-72): `i` enumerates the nodes in insertion order, the layer value
becomes one coordinate according to the orientation. -/
def drawPositions (G : DiGraph) (layers : List (String × Nat))
    (o : Orientation) : List (String × Int × Int) :=
  G.nodes.enum.map (fun p =>
    let l : Int := ((alistGet layers p.2).getD 0 : Nat)
    let i : Int := p.1
    match o with
    | Orientation.TB => (p.2, i, -l)
    | Orientation.BT => (p.2, i, l)
    | Orientation.LR => (p.2, l, -i)
    | Orientation.RL => (p.2, -l, -i))

/-- Node labels of `draw_layered_graph` (src/app.py line 76):
`job_id_to_name.get(node, node)`. -/
def drawLabels (G : DiGraph) (nm : List (String × String)) :
    List (String × String) :=
  G.nodes.map (fun v => (v, (alistGet nm v).getD v))

/-- Display offset of src/app.py line 88: every layer is shifted by +1. -/
def offsetLayers (layers : List (String × Nat)) : List (String × Nat) :=
  layers.map (fun p => (p.1, p.2 + 1))

/-- Stable insertion into a layer-sorted list: the new entry goes after
every entry with a smaller-or-equal layer. -/
def insertByLayer (acc : List (String × Nat)) (x : String × Nat) :
    List (String × Nat) :=
  match acc with
  | [] => [x]
  | y :: ys => if x.2 < y.2 then x :: y :: ys else y :: insertByLayer ys x

/-- Embedding of `sorted(layers.items(), key=lambda x: x[1])`
(src/app.py line 91). A stable sort by key has a unique result, so any
stable embedding agrees with Python's Timsort. -/
def sortByLayer (l : List (String × Nat)) : List (String × Nat) :=
  l.foldl insertByLayer []

/-- One row of the ordered table: `(Layer, Job ID, Name)`; the Name is
`None` (pandas `NaN`) for a node absent from `job_id_to_name`. -/
abbrev TableRow := Nat × String × Option String

/-- Embedding of `visualize_jobs` (src/app.py lines 82-99): the ordered
`(Layer, Job ID, Name)` table, plus the deterministic outputs of
`draw_layered_graph` (positions and labels); the layering error
propagates. -/
def visualize_jobs (rows : List Row) (o : Orientation) :
    Except String (List TableRow × List (String × Int × Int) ×
      List (String × String)) :=
  let jobs := process_jobs_from_input rows
  let G := (build_dependency_graph jobs).1
  let nm := (build_dependency_graph jobs).2
  match assign_layers G with
  | Except.error e => Except.error e
  | Except.ok layers0 =>
    let layers := offsetLayers layers0
    let table := (sortByLayer layers).map (fun p => (p.2, p.1, alistGet nm p.1))
    Except.ok (table, drawPositions G layers o, drawLabels G nm)

/-- Session state of the app: the accepted snapshot `jobs_df` and the
`jobs_updated` flag (src/app.py lines 9-13). -/
structure AppState where
  jobs_df : List Row
  jobs_updated : Bool
deriving DecidableEq

/-- Message responses `main` can emit for one generate click. -/
inductive Output
  | errorText (msg : String)
  | successText (msg : String)
deriving DecidableEq

/-- Embedding of `edited_jobs_df.dropna(subset=['ID', 'Name'])`
(src/app.py line 108): rows missing ID or Name are removed. -/
def dropIncomplete (l : List RawRow) : List Row :=
  l.filterMap (fun r =>
    match r.rowId, r.rowName with
    | some i, some n => some ⟨i, n, r.rowDeps⟩
    | _, _ => none)

/-- Error text built on src/app.py lines 115-117, enumerating every
invalid token of every offending job. -/
def mkErrorMessage (report : List (String × List String)) : String :=
  report.foldl (fun m e =>
    m ++ "Job ID " ++ e.1 ++ " has invalid dependencies: " ++
      joinSep ", " e.2 ++ "\n") "Invalid dependencies found:\n"

/-- Embedding of the generate-click handler (src/app.py lines 107-123).
After the `dropna`, `edited_jobs_df.empty or
edited_jobs_df.isnull().all().all()` holds exactly when the cleaned
table has no rows (a surviving row has a non-null ID, and pandas `all`
of an empty frame is true), so the first branch is modelled by
emptiness of the cleaned row list. -/
def generate_click (st : AppState) (edited0 : List RawRow) :
    AppState × Output :=
  let edited := dropIncomplete edited0
  let report := validate_dependencies edited
  if edited.isEmpty then
    (st, Output.errorText "Please enter job details and dependencies.")
  else if report = [] then
    (⟨edited, true⟩, Output.successText "Jobs updated successfully.")
  else
    ({ st with jobs_updated := false }, Output.errorText (mkErrorMessage report))

/-- Embedding of the rendering block guarded by `jobs_updated`
(src/app.py lines 126-134): nothing is built, layered or drawn unless
the flag is set. -/
def render_step (st : AppState) (o : Orientation) :
    Option (Except String (List TableRow × List (String × Int × Int) ×
      List (String × String))) :=
  if st.jobs_updated then some (visualize_jobs st.jobs_df o) else none

/-- Well-formedness maintained by the `DiGraph` operations: the node
list is duplicate-free and every stored edge has both endpoints among
the nodes. -/
def WF (G : DiGraph) : Prop :=
  G.nodes.Nodup ∧ ∀ e ∈ G.edges, e.1 ∈ G.nodes ∧ e.2 ∈ G.nodes

/-- Local correctness of one node's layer entry, exactly the two
branches of the loop body of `assign_layers`. -/
def LayerSpec (G : DiGraph) (layers : List (String × Nat)) (v : String) :
    Prop :=
  (inDegree G v = 0 → alistGet layers v = some 0) ∧
  (inDegree G v ≠ 0 → ∃ ls, optMapM (alistGet layers) (preds G v) = some ls ∧
    alistGet layers v = some (maxNat ls + 1))

/-- Number of occurrences of `i` in a list of identifiers (used to
state that a duplicated job ID yields exactly one node, one layer entry
and one table row). -/
def countKey (l : List String) (i : String) : Nat :=
  (l.filter (fun x => x = i)).length

/-! Helper lemmas about association lists. -/

theorem alistGet_cons {α : Type} (e : String × α) (d : List (String × α))
    (k : String) :
    alistGet (e :: d) k = if e.1 = k then some e.2 else alistGet d k := rfl

theorem alistGet_append_left {α : Type} {d1 : List (String × α)}
    (d2 : List (String × α)) {k : String} {x : α}
    (h : alistGet d1 k = some x) : alistGet (d1 ++ d2) k = some x := by
  induction d1 with
  | nil => exact Option.noConfusion h
  | cons e d ih =>
    rw [List.cons_append]
    unfold alistGet at h ⊢
    by_cases he : e.1 = k
    · simpa [he] using h
    · simp only [he, if_false] at h ⊢
      exact ih h

theorem alistGet_append_right {α : Type} {d1 : List (String × α)}
    (d2 : List (String × α)) {k : String}
    (h : k ∉ d1.map Prod.fst) : alistGet (d1 ++ d2) k = alistGet d2 k := by
  induction d1 with
  | nil => rfl
  | cons e d ih =>
    simp only [List.map_cons, List.mem_cons] at h
    push_neg at h
    rw [List.cons_append, alistGet_cons, if_neg (Ne.symm h.1)]
    exact ih h.2

theorem alistGet_isSome_of_mem_keys {α : Type} {d : List (String × α)}
    {k : String} (h : k ∈ d.map Prod.fst) : ∃ x, alistGet d k = some x := by
  induction d with
  | nil => simp at h
  | cons e d ih =>
    unfold alistGet
    by_cases he : e.1 = k
    · exact ⟨e.2, by simp [he]⟩
    · simp only [List.map_cons, List.mem_cons] at h
      rcases h with h | h
      · exact absurd h.symm he
      · simpa [he] using ih h

theorem alistGet_eq_none_of_not_mem_keys {α : Type} {d : List (String × α)}
    {k : String} (h : k ∉ d.map Prod.fst) : alistGet d k = none := by
  induction d with
  | nil => rfl
  | cons e d ih =>
    simp only [List.map_cons, List.mem_cons] at h
    push_neg at h
    unfold alistGet
    simp only [Ne.symm h.1, if_false]
    exact ih h.2

theorem mem_keys_of_alistGet_some {α : Type} {d : List (String × α)}
    {k : String} {x : α} (h : alistGet d k = some x) : k ∈ d.map Prod.fst := by
  by_contra hk
  rw [alistGet_eq_none_of_not_mem_keys hk] at h
  exact Option.noConfusion h

theorem dictSet_get_self {α : Type} (d : List (String × α)) (k : String)
    (v : α) : alistGet (dictSet d k v) k = some v := by
  induction d with
  | nil => simp [dictSet, alistGet]
  | cons e d ih =>
    unfold dictSet
    by_cases he : e.1 = k
    · simp [he, alistGet_cons]
    · rw [if_neg he, alistGet_cons, if_neg he]
      exact ih

theorem dictSet_get_other {α : Type} (d : List (String × α)) {k k' : String}
    (v : α) (h : k' ≠ k) : alistGet (dictSet d k' v) k = alistGet d k := by
  induction d with
  | nil => simp [dictSet, alistGet, h]
  | cons e d ih =>
    unfold dictSet
    by_cases he : e.1 = k'
    · rw [if_pos he, alistGet_cons, alistGet_cons, if_neg h,
        if_neg (fun hk => h (he ▸ hk))]
    · rw [if_neg he, alistGet_cons, alistGet_cons]
      by_cases hek : e.1 = k
      · simp [hek]
      · rw [if_neg hek, if_neg hek]
        exact ih

/-! Helper lemmas about list positions, option sequencing, maxima and
folds. -/

theorem idxOf_cons_self (v : String) (l : List String) :
    idxOf v (v :: l) = 0 := by
  simp [idxOf]

theorem idxOf_cons_ne {x v : String} (l : List String) (h : x ≠ v) :
    idxOf v (x :: l) = idxOf v l + 1 := by
  simp [idxOf, h]

theorem idxOf_append_of_not_mem {v : String} {l1 : List String}
    (l2 : List String) (h : v ∉ l1) :
    idxOf v (l1 ++ l2) = l1.length + idxOf v l2 := by
  induction l1 with
  | nil => simp
  | cons x l ih =>
    simp only [List.mem_cons] at h
    push_neg at h
    rw [List.cons_append, idxOf_cons_ne _ (Ne.symm h.1), ih h.2,
      List.length_cons]
    omega

theorem mem_left_of_idxOf_lt {v : String} :
    ∀ (l1 l2 : List String), idxOf v (l1 ++ l2) < l1.length → v ∈ l1 := by
  intro l1
  induction l1 with
  | nil => intro l2 h; simp at h
  | cons x l ih =>
    intro l2 h
    by_cases hx : x = v
    · exact hx ▸ List.mem_cons_self x l
    · rw [List.cons_append, idxOf_cons_ne _ hx, List.length_cons] at h
      exact List.mem_cons_of_mem x (ih l2 (by omega))

theorem optMapM_some_of_forall {α β : Type} {f : α → Option β} :
    ∀ {l : List α}, (∀ a ∈ l, ∃ b, f a = some b) →
      ∃ bs, optMapM f l = some bs := by
  intro l
  induction l with
  | nil => exact fun _ => ⟨[], rfl⟩
  | cons x xs ih =>
    intro h
    rcases h x (List.mem_cons_self x xs) with ⟨b, hb⟩
    rcases ih (fun a ha => h a (List.mem_cons_of_mem x ha)) with ⟨bs, hbs⟩
    exact ⟨b :: bs, by simp [optMapM, hb, hbs]⟩

theorem optMapM_mem_some {α β : Type} {f : α → Option β} :
    ∀ {l : List α} {bs : List β}, optMapM f l = some bs →
      ∀ a ∈ l, ∃ b, f a = some b ∧ b ∈ bs := by
  intro l
  induction l with
  | nil => intro bs _ a ha; simp at ha
  | cons x xs ih =>
    intro bs h a ha
    unfold optMapM at h
    rcases hx : f x with _ | b
    · rw [hx] at h; exact Option.noConfusion h
    · rcases hxs : optMapM f xs with _ | bs'
      · rw [hx, hxs] at h; exact Option.noConfusion h
      · rw [hx, hxs] at h
        injection h with h
        subst h
        rcases List.mem_cons.mp ha with ha | ha
        · exact ⟨b, ha ▸ hx, List.mem_cons_self b bs'⟩
        · rcases ih hxs a ha with ⟨b', hb', hmem⟩
          exact ⟨b', hb', List.mem_cons_of_mem b hmem⟩

theorem optMapM_mono {α β : Type} {f g : α → Option β} :
    ∀ {l : List α} {bs : List β}, optMapM f l = some bs →
      (∀ a b, a ∈ l → f a = some b → g a = some b) →
      optMapM g l = some bs := by
  intro l
  induction l with
  | nil => intro bs h _; exact h
  | cons x xs ih =>
    intro bs h hfg
    unfold optMapM at h ⊢
    rcases hx : f x with _ | b
    · rw [hx] at h; exact Option.noConfusion h
    · rcases hxs : optMapM f xs with _ | bs'
      · rw [hx, hxs] at h; exact Option.noConfusion h
      · rw [hx, hxs] at h
        rw [hfg x b (List.mem_cons_self x xs) hx,
          ih hxs (fun a b ha => hfg a b (List.mem_cons_of_mem x ha))]
        exact h

theorem foldl_max_le_seed : ∀ (l : List Nat) (seed : Nat),
    seed ≤ l.foldl max seed := by
  intro l
  induction l with
  | nil => intro seed; exact Nat.le_refl seed
  | cons x xs ih =>
    intro seed
    calc seed ≤ max seed x := Nat.le_max_left seed x
    _ ≤ (x :: xs).foldl max seed := by rw [List.foldl_cons]; exact ih _

theorem le_maxNat_of_mem : ∀ {l : List Nat} {b : Nat}, b ∈ l →
    b ≤ maxNat l := by
  have key : ∀ (l : List Nat) (seed b : Nat), b ∈ l → b ≤ l.foldl max seed := by
    intro l
    induction l with
    | nil => intro seed b h; simp at h
    | cons x xs ih =>
      intro seed b h
      rcases List.mem_cons.mp h with h | h
      · subst h
        calc b ≤ max seed b := Nat.le_max_right seed b
        _ ≤ xs.foldl max (max seed b) := foldl_max_le_seed xs _
        _ = (b :: xs).foldl max seed := by rw [List.foldl_cons]
      · exact List.foldl_cons _ _ ▸ ih (max seed x) b h
  intro l b h
  exact key l 0 b h

theorem foldl_preserve {α β : Type} (f : β → α → β) (P : β → Prop)
    (hstep : ∀ b a, P b → P (f b a)) :
    ∀ (l : List α) (b : β), P b → P (l.foldl f b) := by
  intro l
  induction l with
  | nil => intro b h; exact h
  | cons x xs ih =>
    intro b h
    rw [List.foldl_cons]
    exact ih (f b x) (hstep b x h)

/-! Helper lemmas about the graph embedding. -/

theorem mem_preds {G : DiGraph} {p v : String} :
    p ∈ preds G v ↔ (p, v) ∈ G.edges := by
  unfold preds
  simp only [List.mem_map, List.mem_filter]
  constructor
  · rintro ⟨e, ⟨he, hv⟩, hp⟩
    have : e = (p, v) := by
      rcases e with ⟨a, b⟩
      simp only at hp
      simp only [decide_eq_true_eq] at hv
      simp [hp, hv]
    exact this ▸ he
  · intro h
    exact ⟨(p, v), ⟨h, by simp⟩, rfl⟩

theorem inDegree_eq_zero_iff {G : DiGraph} {v : String} :
    inDegree G v = 0 ↔ ∀ p, (p, v) ∉ G.edges := by
  unfold inDegree
  rw [List.length_eq_zero]
  constructor
  · intro h p hp
    have : p ∈ preds G v := mem_preds.mpr hp
    rw [h] at this
    simp at this
  · intro h
    by_contra hne
    rcases List.exists_mem_of_ne_nil _ hne with ⟨p, hp⟩
    exact h p (mem_preds.mp hp)

theorem addNode_edges (G : DiGraph) (v : String) :
    (addNode G v).edges = G.edges := by
  unfold addNode
  by_cases h : v ∈ G.nodes <;> simp [h]

theorem mem_nodes_addNode {G : DiGraph} {x : String} (v : String)
    (h : x ∈ G.nodes) : x ∈ (addNode G v).nodes := by
  unfold addNode
  by_cases hv : v ∈ G.nodes <;> simp [hv, h]

theorem mem_nodes_addNode_self (G : DiGraph) (v : String) :
    v ∈ (addNode G v).nodes := by
  unfold addNode
  by_cases hv : v ∈ G.nodes <;> simp [hv]

theorem mem_nodes_addNode_iff {G : DiGraph} {x v : String} :
    x ∈ (addNode G v).nodes ↔ x ∈ G.nodes ∨ x = v := by
  unfold addNode
  by_cases hv : v ∈ G.nodes
  · simp only [hv, if_true]
    constructor
    · exact Or.inl
    · rintro (h | h)
      · exact h
      · exact h ▸ hv
  · simp [hv]

theorem addNode_wf {G : DiGraph} (v : String) (h : WF G) :
    WF (addNode G v) := by
  rcases h with ⟨hnd, hedge⟩
  unfold addNode
  by_cases hv : v ∈ G.nodes
  · simpa [hv] using ⟨hnd, hedge⟩
  · simp only [hv, if_false]
    refine ⟨?_, ?_⟩
    · simpa [List.nodup_append] using ⟨hnd, hv⟩
    · intro e he
      rcases hedge e he with ⟨hu, hw⟩
      exact ⟨List.mem_append_left _ hu, List.mem_append_left _ hw⟩

theorem addEdge_edges (G : DiGraph) (u v : String) :
    (addEdge G u v).edges =
      if (u, v) ∈ G.edges then G.edges else G.edges ++ [(u, v)] := by
  unfold addEdge
  by_cases he : (u, v) ∈ G.edges <;> simp [he, addNode_edges]

theorem mem_edges_addEdge_iff {G : DiGraph} {e : String × String}
    {u v : String} :
    e ∈ (addEdge G u v).edges ↔ e ∈ G.edges ∨ e = (u, v) := by
  rw [addEdge_edges]
  by_cases he : (u, v) ∈ G.edges
  · simp only [he, if_true]
    constructor
    · exact Or.inl
    · rintro (h | h)
      · exact h
      · exact h ▸ he
  · simp [he]

theorem mem_nodes_addEdge {G : DiGraph} {x : String} (u v : String)
    (h : x ∈ G.nodes) : x ∈ (addEdge G u v).nodes := by
  unfold addEdge
  by_cases he : (u, v) ∈ (addNode (addNode G u) v).edges <;>
    simp only [he, if_true, if_false] <;>
    exact mem_nodes_addNode v (mem_nodes_addNode u h)

theorem mem_nodes_addEdge_left (G : DiGraph) (u v : String) :
    u ∈ (addEdge G u v).nodes := by
  unfold addEdge
  by_cases he : (u, v) ∈ (addNode (addNode G u) v).edges <;>
    simp only [he, if_true, if_false] <;>
    exact mem_nodes_addNode v (mem_nodes_addNode_self G u)

theorem mem_nodes_addEdge_right (G : DiGraph) (u v : String) :
    v ∈ (addEdge G u v).nodes := by
  unfold addEdge
  by_cases he : (u, v) ∈ (addNode (addNode G u) v).edges <;>
    simp only [he, if_true, if_false] <;>
    exact mem_nodes_addNode_self (addNode G u) v

theorem mem_edges_addEdge_self (G : DiGraph) (u v : String) :
    (u, v) ∈ (addEdge G u v).edges :=
  mem_edges_addEdge_iff.mpr (Or.inr rfl)

theorem addEdge_wf {G : DiGraph} (u v : String) (h : WF G) :
    WF (addEdge G u v) := by
  have h2 : WF (addNode (addNode G u) v) := addNode_wf v (addNode_wf u h)
  unfold addEdge
  by_cases he : (u, v) ∈ (addNode (addNode G u) v).edges
  · simpa [he] using h2
  · simp only [he, if_false]
    rcases h2 with ⟨hnd, hedge⟩
    refine ⟨hnd, ?_⟩
    intro e' he'
    rcases List.mem_append.mp he' with he' | he'
    · exact hedge e' he'
    · simp only [List.mem_singleton] at he'
      rw [he']
      exact ⟨mem_nodes_addNode v (mem_nodes_addNode_self G u),
        mem_nodes_addNode_self (addNode G u) v⟩

theorem addEdge_eq_self {G : DiGraph} {u v : String}
    (hu : u ∈ G.nodes) (hv : v ∈ G.nodes) (he : (u, v) ∈ G.edges) :
    addEdge G u v = G := by
  have h1 : addNode G u = G := by unfold addNode; simp [hu]
  have h2 : addNode (addNode G u) v = G := by rw [h1]; unfold addNode; simp [hv]
  unfold addEdge
  rw [h2]
  simp [he]

theorem depStep_wf {jid : String} {g : DiGraph} (dep : String) (h : WF g) :
    WF (depStep jid g dep) := by
  unfold depStep
  by_cases hd : dep = ""
  · simpa [hd] using h
  · simp only [hd, if_false]
    exact addEdge_wf dep jid h

theorem addJob_wf {acc : DiGraph × List (String × String)} (j : Job)
    (h : WF acc.1) : WF (addJob acc j).1 := by
  unfold addJob
  exact foldl_preserve (depStep j.1) WF (fun g dep hg => depStep_wf dep hg)
    j.2.2 _ (addNode_wf j.1 h)

theorem build_wf (jobs : List Job) : WF (build_dependency_graph jobs).1 := by
  unfold build_dependency_graph
  have : ∀ (l : List Job) (acc : DiGraph × List (String × String)),
      WF acc.1 → WF (l.foldl addJob acc).1 := by
    intro l
    induction l with
    | nil => intro acc h; exact h
    | cons j js ih =>
      intro acc h
      rw [List.foldl_cons]
      exact ih _ (addJob_wf j h)
  exact this jobs (⟨[], []⟩, []) ⟨List.nodup_nil, by intro e h; simp at h⟩

theorem nodes_build_nodup (jobs : List Job) :
    (build_dependency_graph jobs).1.nodes.Nodup :=
  (build_wf jobs).1

theorem depStep_nodes_mono {jid : String} {g : DiGraph} {x : String}
    (dep : String) (h : x ∈ g.nodes) : x ∈ (depStep jid g dep).nodes := by
  unfold depStep
  by_cases hd : dep = ""
  · simpa [hd] using h
  · simp only [hd, if_false]
    exact mem_nodes_addEdge dep jid h

theorem addJob_nodes_mono {acc : DiGraph × List (String × String)}
    {x : String} (j : Job) (h : x ∈ acc.1.nodes) :
    x ∈ (addJob acc j).1.nodes := by
  unfold addJob
  exact foldl_preserve (depStep j.1) (fun g => x ∈ g.nodes)
    (fun g dep hg => depStep_nodes_mono dep hg) j.2.2 _
    (mem_nodes_addNode j.1 h)

theorem mem_nodes_build {jobs : List Job} {j : Job}
    (h : j ∈ jobs) : j.1 ∈ (build_dependency_graph jobs).1.nodes := by
  unfold build_dependency_graph
  rcases List.append_of_mem h with ⟨l1, l2, rfl⟩
  rw [List.foldl_append, List.foldl_cons]
  refine foldl_preserve addJob (fun acc => j.1 ∈ acc.1.nodes)
    (fun acc j' hacc => addJob_nodes_mono j' hacc) l2 _ ?_
  unfold addJob
  exact foldl_preserve (depStep j.1) (fun g => j.1 ∈ g.nodes)
    (fun g dep hg => depStep_nodes_mono dep hg) j.2.2 _
    (mem_nodes_addNode_self _ j.1)

/-! Soundness of the topological-sort embedding. -/

theorem pickSource_some {G : DiGraph} {rem : List String} {v : String}
    (h : pickSource G rem = some v) :
    v ∈ rem ∧ ∀ p ∈ preds G v, p ∉ rem := by
  unfold pickSource at h
  refine ⟨List.mem_of_find?_eq_some h, ?_⟩
  have := List.find?_some h
  exact of_decide_eq_true this

theorem topoSortAux_perm {G : DiGraph} :
    ∀ (fuel : Nat) (rem l : List String),
      topoSortAux G fuel rem = some l → l.Perm rem := by
  intro fuel
  induction fuel with
  | zero =>
    intro rem l h
    unfold topoSortAux at h
    by_cases hrem : rem.isEmpty
    · rw [if_pos hrem] at h
      injection h with h
      subst h
      rw [List.isEmpty_iff] at hrem
      exact hrem ▸ List.Perm.refl []
    · rw [if_neg hrem] at h
      exact Option.noConfusion h
  | succ fuel ih =>
    intro rem l h
    unfold topoSortAux at h
    rcases hpick : pickSource G rem with _ | v
    · rw [hpick] at h
      by_cases hrem : rem.isEmpty
      · rw [if_pos hrem] at h
        injection h with h
        subst h
        rw [List.isEmpty_iff] at hrem
        exact hrem ▸ List.Perm.refl []
      · rw [if_neg hrem] at h
        exact Option.noConfusion h
    · simp only [hpick] at h
      rcases hrec : topoSortAux G fuel (rem.erase v) with _ | l'
      · rw [hrec, Option.map_none'] at h
        exact Option.noConfusion h
      · rw [hrec, Option.map_some'] at h
        injection h with h
        subst h
        have hperm : l'.Perm (rem.erase v) := ih _ _ hrec
        have hv : v ∈ rem := (pickSource_some hpick).1
        exact (hperm.cons v).trans (List.perm_cons_erase hv).symm

theorem topoSortAux_sorted {G : DiGraph} :
    ∀ (fuel : Nat) (rem l : List String),
      topoSortAux G fuel rem = some l →
      ∀ u v, (u, v) ∈ G.edges → u ∈ rem → v ∈ rem →
        idxOf u l < idxOf v l := by
  intro fuel
  induction fuel with
  | zero =>
    intro rem l h u v _ hu _
    unfold topoSortAux at h
    by_cases hrem : rem.isEmpty
    · rw [List.isEmpty_iff] at hrem
      subst hrem
      simp at hu
    · rw [if_neg (by simpa using hrem)] at h
      exact Option.noConfusion h
  | succ fuel ih =>
    intro rem l h u v huv hu hv
    unfold topoSortAux at h
    rcases hpick : pickSource G rem with _ | w
    · rw [hpick] at h
      by_cases hrem : rem.isEmpty
      · rw [List.isEmpty_iff] at hrem
        subst hrem
        simp at hu
      · rw [if_neg (by simpa using hrem)] at h
        exact Option.noConfusion h
    · simp only [hpick] at h
      rcases hrec : topoSortAux G fuel (rem.erase w) with _ | l'
      · rw [hrec, Option.map_none'] at h
        exact Option.noConfusion h
      · rw [hrec, Option.map_some'] at h
        injection h with h
        subst h
        rcases pickSource_some hpick with ⟨hw, hnopred⟩
        have hvw : v ≠ w := by
          intro hvw
          subst hvw
          exact hnopred u (mem_preds.mpr huv) hu
        by_cases huw : u = w
        · subst huw
          rw [idxOf_cons_self, idxOf_cons_ne _ (fun h => hvw h.symm)]
          exact Nat.succ_pos _
        · have hu' : u ∈ rem.erase w := (List.mem_erase_of_ne huw).mpr hu
          have hv' : v ∈ rem.erase w := (List.mem_erase_of_ne hvw).mpr hv
          have := ih _ _ hrec u v huv hu' hv'
          rw [idxOf_cons_ne _ (fun h => huw h.symm),
            idxOf_cons_ne _ (fun h => hvw h.symm)]
          omega

theorem nx_topological_sort_ok {G : DiGraph} {l : List String}
    (hwf : WF G) (h : nx_topological_sort G = Except.ok l) :
    IsTopoOrder G l := by
  unfold nx_topological_sort at h
  rcases htop : topoSortAux G G.nodes.length G.nodes with _ | l'
  · rw [htop] at h
    exact Except.noConfusion h
  · rw [htop] at h
    injection h with h
    subst h
    have hperm := topoSortAux_perm _ _ _ htop
    refine ⟨hperm.nodup_iff.mpr hwf.1, fun v => hperm.mem_iff, ?_⟩
    intro u v huv
    exact topoSortAux_sorted _ _ _ htop u v huv
      (hwf.2 (u, v) huv).1 (hwf.2 (u, v) huv).2

theorem nx_topological_sort_none {G : DiGraph} (hwf : WF G)
    (h : ¬ ∃ l, IsTopoOrder G l) :
    nx_topological_sort G =
      Except.error "Graph contains a cycle or graph changed during iteration" := by
  rcases hres : nx_topological_sort G with e | l
  · unfold nx_topological_sort at hres
    rcases htop : topoSortAux G G.nodes.length G.nodes with _ | l'
    · rw [htop] at hres
      injection hres with hres
      rw [hres]
    · rw [htop] at hres
      exact Except.noConfusion hres
  · exact absurd ⟨l, nx_topological_sort_ok hwf hres⟩ h

/-! The layer-assignment fold along a topological order. -/

theorem layerStep_ok (G : DiGraph) (layers : List (String × Nat))
    (v : String) :
    layerStep G (Except.ok layers) v =
      if inDegree G v = 0 then Except.ok (layers ++ [(v, 0)])
      else
        match optMapM (alistGet layers) (preds G v) with
        | none => Except.error "KeyError"
        | some ls => Except.ok (layers ++ [(v, maxNat ls + 1)]) := rfl

theorem layerFold_error (G : DiGraph) (e : String) :
    ∀ rest : List String,
      rest.foldl (layerStep G) (Except.error e) = Except.error e := by
  intro rest
  induction rest with
  | nil => rfl
  | cons v rest ih =>
    rw [List.foldl_cons]
    have : layerStep G (Except.error e) v = Except.error e := rfl
    rw [this, ih]

theorem layerFold_keys (G : DiGraph) :
    ∀ (rest : List String) (layers layersF : List (String × Nat)),
      rest.foldl (layerStep G) (Except.ok layers) = Except.ok layersF →
      layersF.map Prod.fst = layers.map Prod.fst ++ rest := by
  intro rest
  induction rest with
  | nil =>
    intro layers layersF h
    injection h with h
    simp [h]
  | cons v rest ih =>
    intro layers layersF h
    rw [List.foldl_cons] at h
    rcases hstep : layerStep G (Except.ok layers) v with e | layers'
    · rw [hstep, layerFold_error] at h
      exact Except.noConfusion h
    · rw [hstep] at h
      have hkeys : layers'.map Prod.fst = layers.map Prod.fst ++ [v] := by
        rw [layerStep_ok] at hstep
        by_cases hdeg : inDegree G v = 0
        · rw [if_pos hdeg] at hstep
          injection hstep with hstep
          simp [← hstep]
        · rw [if_neg hdeg] at hstep
          rcases hmap : optMapM (alistGet layers) (preds G v) with _ | ls
          · rw [hmap] at hstep
            exact Except.noConfusion hstep
          · rw [hmap] at hstep
            injection hstep with hstep
            simp [← hstep]
      rw [ih _ _ h, hkeys]
      simp

theorem layerFold_go (G : DiGraph) (ord : List String) (hnd : ord.Nodup)
    (hedge : ∀ u v, (u, v) ∈ G.edges → v ∈ ord →
      u ∈ ord ∧ idxOf u ord < idxOf v ord) :
    ∀ (rest done : List String) (layers : List (String × Nat)),
      ord = done ++ rest →
      layers.map Prod.fst = done →
      ∃ layersF,
        rest.foldl (layerStep G) (Except.ok layers) = Except.ok layersF ∧
        layersF.map Prod.fst = done ++ rest ∧
        (∀ p x, alistGet layers p = some x → alistGet layersF p = some x) ∧
        (∀ v ∈ rest, LayerSpec G layersF v) := by
  intro rest
  induction rest with
  | nil =>
    intro done layers hord hkeys
    refine ⟨layers, rfl, ?_, fun p x h => h, by intro v hv; simp at hv⟩
    rw [hkeys, List.append_nil]
  | cons v rest ih =>
    intro done layers hord hkeys
    have hvord : v ∈ ord := by
      rw [hord]
      exact List.mem_append_right done (List.mem_cons_self v rest)
    have hvdone : v ∉ done := by
      intro hvd
      have := hord ▸ hnd
      rw [List.nodup_append] at this
      exact this.2.2 hvd (List.mem_cons_self v rest)
    have hvidx : idxOf v ord = done.length := by
      rw [hord, idxOf_append_of_not_mem _ hvdone, idxOf_cons_self]
      omega
    have hvkeys : v ∉ layers.map Prod.fst := hkeys ▸ hvdone
    -- The step on v produces one new entry.
    have hpred_done : ∀ p ∈ preds G v, ∃ x, alistGet layers p = some x := by
      intro p hp
      have hpe : (p, v) ∈ G.edges := mem_preds.mp hp
      rcases hedge p v hpe hvord with ⟨hpo, hpi⟩
      rw [hvidx] at hpi
      have hpd : p ∈ done := by
        refine mem_left_of_idxOf_lt done (v :: rest) ?_
        rw [← hord]
        exact hpi
      exact alistGet_isSome_of_mem_keys (hkeys ▸ hpd)
    have hstep : ∃ val, layerStep G (Except.ok layers) v
        = Except.ok (layers ++ [(v, val)]) ∧
        (inDegree G v = 0 → val = 0) ∧
        (inDegree G v ≠ 0 → ∃ ls,
          optMapM (alistGet layers) (preds G v) = some ls ∧
          val = maxNat ls + 1) := by
      rw [layerStep_ok]
      by_cases hdeg : inDegree G v = 0
      · exact ⟨0, by rw [if_pos hdeg], fun _ => rfl, fun h => absurd hdeg h⟩
      · rcases optMapM_some_of_forall hpred_done with ⟨ls, hls⟩
        refine ⟨maxNat ls + 1, ?_, fun h => absurd h hdeg, fun _ => ⟨ls, hls, rfl⟩⟩
        rw [if_neg hdeg, hls]
    rcases hstep with ⟨val, hstep, hval0, hval1⟩
    have hkeys' : (layers ++ [(v, val)]).map Prod.fst = done ++ [v] := by
      rw [List.map_append, hkeys]
      rfl
    have hord' : ord = (done ++ [v]) ++ rest := by
      rw [hord, List.append_assoc]
      rfl
    rcases ih (done ++ [v]) (layers ++ [(v, val)]) hord' hkeys' with
      ⟨layersF, hfold, hkeysF, hstable, hspec⟩
    have hgetv : alistGet (layers ++ [(v, val)]) v = some val := by
      rw [alistGet_append_right _ hvkeys]
      simp [alistGet]
    have hstable0 : ∀ p x, alistGet layers p = some x →
        alistGet layersF p = some x := by
      intro p x hp
      exact hstable p x (alistGet_append_left _ hp)
    refine ⟨layersF, ?_, ?_, hstable0, ?_⟩
    · rw [List.foldl_cons, hstep]
      exact hfold
    · rw [hkeysF, List.append_assoc]
      rfl
    · intro w hw
      rcases List.mem_cons.mp hw with hw | hw
      · subst hw
        have hgetF : alistGet layersF w = some val := hstable _ _ hgetv
        constructor
        · intro hdeg
          rw [hgetF, hval0 hdeg]
        · intro hdeg
          rcases hval1 hdeg with ⟨ls, hls, hvls⟩
          refine ⟨ls, ?_, by rw [hgetF, hvls]⟩
          exact optMapM_mono hls (fun a b _ hab => hstable0 a b hab)
      · exact hspec w hw

theorem assign_layers_ok_spec {G : DiGraph} {layers : List (String × Nat)}
    (hwf : WF G) (h : assign_layers G = Except.ok layers) :
    (layers.map Prod.fst).Perm G.nodes ∧
      ∀ v ∈ G.nodes, LayerSpec G layers v := by
  unfold assign_layers at h
  rcases hnx : nx_topological_sort G with e | ord
  · rw [hnx] at h
    exact Except.noConfusion h
  · simp only [hnx] at h
    rcases nx_topological_sort_ok hwf hnx with ⟨hnd, hmem, hidx⟩
    have hedge : ∀ u v, (u, v) ∈ G.edges → v ∈ ord →
        u ∈ ord ∧ idxOf u ord < idxOf v ord := by
      intro u v huv _
      exact ⟨(hmem u).mpr (hwf.2 (u, v) huv).1, hidx u v huv⟩
    rcases layerFold_go G ord hnd hedge ord [] [] rfl rfl with
      ⟨layersF, hfold, hkeysF, _, hspec⟩
    rw [hfold] at h
    injection h with h
    subst h
    constructor
    · rw [hkeysF, List.nil_append]
      exact (List.perm_ext_iff_of_nodup hnd (hwf.1)).mpr hmem
    · intro v hv
      exact hspec v ((hmem v).mpr hv)

/-! Lemmas about the validator fold. -/

theorem invalidDepsOf_eq_nil_iff {jobIds : List String} {r : Row} :
    invalidDepsOf jobIds r = [] ↔
      ∀ dep ∈ splitDeps r.depText, pyStrip dep ∈ jobIds := by
  unfold invalidDepsOf
  rw [List.filterMap_eq_nil]
  constructor
  · intro h dep hdep
    have := h dep hdep
    by_cases hd : pyStrip dep ∈ jobIds
    · exact hd
    · simp only [hd, if_false] at this
      exact Option.noConfusion this
  · intro h dep hdep
    simp only [h dep hdep, if_true]

theorem dictSet_ne_nil {α : Type} (d : List (String × α)) (k : String)
    (v : α) : dictSet d k v ≠ [] := by
  rcases d with _ | ⟨e, d⟩
  · simp [dictSet]
  · unfold dictSet
    by_cases he : e.1 = k <;> simp [he]

theorem valStep_ne_nil {jobIds : List String}
    {acc : List (String × List String)} (r : Row) (h : acc ≠ []) :
    valStep jobIds acc r ≠ [] := by
  unfold valStep
  by_cases hi : invalidDepsOf jobIds r = []
  · simpa [hi] using h
  · simp only [hi, if_false]
    exact dictSet_ne_nil acc r.jobId _

theorem valFold_preserve (jobIds : List String) :
    ∀ (rest : List Row) (acc : List (String × List String)) (k : String),
      (∀ r ∈ rest, r.jobId ≠ k) →
      alistGet (rest.foldl (valStep jobIds) acc) k = alistGet acc k := by
  intro rest
  induction rest with
  | nil => intro acc k _; rfl
  | cons r rest ih =>
    intro acc k hk
    rw [List.foldl_cons]
    rw [ih _ k (fun r' hr' => hk r' (List.mem_cons_of_mem r hr'))]
    unfold valStep
    by_cases hi : invalidDepsOf jobIds r = []
    · simp [hi]
    · simp only [hi, if_false]
      exact dictSet_get_other acc _ (hk r (List.mem_cons_self r rest))

theorem valFold_mem (jobIds : List String) :
    ∀ (rest : List Row) (acc : List (String × List String)) (r : Row),
      r ∈ rest → (rest.map Row.jobId).Nodup →
      alistGet acc r.jobId = none →
      alistGet (rest.foldl (valStep jobIds) acc) r.jobId =
        if invalidDepsOf jobIds r = [] then none
        else some (invalidDepsOf jobIds r) := by
  intro rest
  induction rest with
  | nil => intro acc r hr; simp at hr
  | cons r' rest ih =>
    intro acc r hr hnd hacc
    rw [List.map_cons, List.nodup_cons] at hnd
    rcases List.mem_cons.mp hr with hr | hr
    · subst hr
      have hnot : ∀ r'' ∈ rest, r''.jobId ≠ r.jobId := by
        intro r'' hr'' heq
        exact hnd.1 (heq ▸ List.mem_map_of_mem Row.jobId hr'')
      rw [List.foldl_cons, valFold_preserve jobIds rest _ _ hnot]
      unfold valStep
      by_cases hi : invalidDepsOf jobIds r = []
      · simp only [hi, if_true]
        exact hacc
      · simp only [hi, if_false]
        exact dictSet_get_self acc r.jobId _
    · have hne : r'.jobId ≠ r.jobId := by
        intro heq
        exact hnd.1 (heq ▸ List.mem_map_of_mem Row.jobId hr)
      rw [List.foldl_cons]
      refine ih _ r hr hnd.2 ?_
      unfold valStep
      by_cases hi : invalidDepsOf jobIds r' = []
      · simpa [hi] using hacc
      · simp only [hi, if_false]
        rw [dictSet_get_other acc _ hne]
        exact hacc

theorem valFold_id_of_all_valid (jobIds : List String) :
    ∀ (rest : List Row) (acc : List (String × List String)),
      (∀ r ∈ rest, invalidDepsOf jobIds r = []) →
      rest.foldl (valStep jobIds) acc = acc := by
  intro rest
  induction rest with
  | nil => intro acc _; rfl
  | cons r rest ih =>
    intro acc h
    rw [List.foldl_cons]
    have hstep : valStep jobIds acc r = acc := by
      unfold valStep
      simp [h r (List.mem_cons_self r rest)]
    rw [hstep]
    exact ih _ (fun r' hr' => h r' (List.mem_cons_of_mem r hr'))

theorem valFold_ne_nil_of_invalid (jobIds : List String) :
    ∀ (rest : List Row) (acc : List (String × List String)) (r : Row),
      r ∈ rest → invalidDepsOf jobIds r ≠ [] →
      rest.foldl (valStep jobIds) acc ≠ [] := by
  intro rest
  induction rest with
  | nil => intro acc r hr; simp at hr
  | cons r' rest ih =>
    intro acc r hr hi
    rw [List.foldl_cons]
    rcases List.mem_cons.mp hr with hr | hr
    · subst hr
      have hstep : valStep jobIds acc r ≠ [] := by
        unfold valStep
        simp only [hi, if_false]
        exact dictSet_ne_nil acc r.jobId _
      have : ∀ (rest' : List Row) (acc' : List (String × List String)),
          acc' ≠ [] → rest'.foldl (valStep jobIds) acc' ≠ [] := by
        intro rest'
        induction rest' with
        | nil => intro acc' h; exact h
        | cons r'' rest'' ih' =>
          intro acc' h
          rw [List.foldl_cons]
          exact ih' _ (valStep_ne_nil r'' h)
      exact this rest _ hstep
    · exact ih _ r hr hi

/-! Lemmas about the comma splitter. -/

theorem pySplitAux_ne_nil (sep : Char) :
    ∀ (cs cur : List Char), pySplitAux sep cs cur ≠ [] := by
  intro cs
  induction cs with
  | nil => intro cur; simp [pySplitAux]
  | cons c cs ih =>
    intro cur
    unfold pySplitAux
    by_cases hc : c = sep
    · simp [hc]
    · simp only [hc, if_false]
      exact ih (c :: cur)

theorem joinSepL_cons_of_ne_nil (sep : Char) (x : List Char)
    {rest : List (List Char)} (h : rest ≠ []) :
    joinSepL sep (x :: rest) = x ++ sep :: joinSepL sep rest := by
  rcases rest with _ | ⟨y, ys⟩
  · exact absurd rfl h
  · rfl

theorem joinSepL_pySplitAux (sep : Char) :
    ∀ (cs cur : List Char),
      joinSepL sep (pySplitAux sep cs cur) = cur.reverse ++ cs := by
  intro cs
  induction cs with
  | nil => intro cur; simp [pySplitAux, joinSepL]
  | cons c cs ih =>
    intro cur
    unfold pySplitAux
    by_cases hc : c = sep
    · simp only [hc, if_true]
      rw [joinSepL_cons_of_ne_nil sep _ (pySplitAux_ne_nil sep cs []), ih []]
      simp
    · simp only [hc, if_false]
      rw [ih (c :: cur)]
      simp

/-! Claim theorems. -/

/-- C3: with pairwise distinct job IDs, the validator returns the empty
mapping exactly when every comma-separated dependency token of every
row, after trimming, is a known job ID; otherwise it maps each
offending job ID to the full list of its invalid trimmed tokens, and a
job with no invalid token does not appear in the mapping. -/
theorem claim_validate_spec (rows : List Row)
    (hnd : (job_ids_of rows).Nodup) :
    (validate_dependencies rows = [] ↔
      ∀ r ∈ rows, ∀ dep ∈ splitDeps r.depText,
        pyStrip dep ∈ job_ids_of rows) ∧
    (∀ r ∈ rows,
      (invalidDepsOf (job_ids_of rows) r ≠ [] →
        alistGet (validate_dependencies rows) r.jobId
          = some (invalidDepsOf (job_ids_of rows) r)) ∧
      (invalidDepsOf (job_ids_of rows) r = [] →
        alistGet (validate_dependencies rows) r.jobId = none)) := by
  have hnd' : (rows.map Row.jobId).Nodup := hnd
  constructor
  · constructor
    · intro h r hr dep hdep
      by_contra hbad
      have hi : invalidDepsOf (job_ids_of rows) r ≠ [] := by
        intro hnil
        exact hbad (invalidDepsOf_eq_nil_iff.mp hnil dep hdep)
      exact valFold_ne_nil_of_invalid _ rows [] r hr hi h
    · intro h
      unfold validate_dependencies
      exact valFold_id_of_all_valid _ rows []
        (fun r hr => invalidDepsOf_eq_nil_iff.mpr (h r hr))
  · intro r hr
    have hmem := valFold_mem (job_ids_of rows) rows [] r hr hnd' rfl
    constructor
    · intro hi
      unfold validate_dependencies
      rw [hmem, if_neg hi]
    · intro hi
      unfold validate_dependencies
      rw [hmem, if_pos hi]

/-- Witness for C3 at the spec's Scenario B: job X references the
undefined job Y and is reported with invalid token list containing Y. -/
theorem claim_validate_spec_witness :
    (validate_dependencies [⟨"X", "Bad", some "Y"⟩] = [] ↔
      ∀ r ∈ [Row.mk "X" "Bad" (some "Y")], ∀ dep ∈ splitDeps r.depText,
        pyStrip dep ∈ job_ids_of [⟨"X", "Bad", some "Y"⟩]) ∧
    (∀ r ∈ [Row.mk "X" "Bad" (some "Y")],
      (invalidDepsOf (job_ids_of [⟨"X", "Bad", some "Y"⟩]) r ≠ [] →
        alistGet (validate_dependencies [⟨"X", "Bad", some "Y"⟩]) r.jobId
          = some (invalidDepsOf (job_ids_of [⟨"X", "Bad", some "Y"⟩]) r)) ∧
      (invalidDepsOf (job_ids_of [⟨"X", "Bad", some "Y"⟩]) r = [] →
        alistGet (validate_dependencies [⟨"X", "Bad", some "Y"⟩]) r.jobId
          = none)) :=
  claim_validate_spec [⟨"X", "Bad", some "Y"⟩] (by decide)

/-- C6: the parser turns each row into a job whose dependency list is
the comma split of the row's dependency text, with an empty or missing
text yielding the empty list; `joinSepL` recovers the original
characters, so the split is exactly a splitting on commas. The
embedding is total: no row makes the parser fail. -/
theorem claim_parser_split (rows : List Row) :
    process_jobs_from_input rows
      = rows.map (fun r => (r.jobId, r.jobName, splitDeps r.depText)) ∧
    splitDeps none = [] ∧
    splitDeps (some "") = [] ∧
    ∀ s : String, s ≠ "" →
      splitDeps (some s) = pySplit s ',' ∧
      joinSepL ',' (pySplitAux ',' s.data []) = s.data := by
  refine ⟨rfl, rfl, rfl, ?_⟩
  intro s hs
  constructor
  · show (if s = "" then [] else pySplit s ',') = pySplit s ','
    rw [if_neg hs]
  · exact joinSepL_pySplitAux ',' s.data []

/-- Witness for C6: splitting a two-token dependency cell on commas and
joining the tokens back. -/
theorem claim_parser_split_witness :
    splitDeps (some "a, b") = pySplit "a, b" ',' ∧
    joinSepL ',' (pySplitAux ',' ("a, b").data []) = ("a, b").data :=
  (claim_parser_split []).2.2.2 "a, b" (by decide)

/-- C5 fails on the code: the graph builder of src/app.py line 47 tests
and inserts the raw dependency token without trimming. On the input
rows A (no dependencies) and B (dependency text " A"), validation
passes (the validator trims), yet the built graph contains the edge
from the whitespace-bearing token " A" — a fresh node distinct from
the job node "A" — and no edge from the trimmed token "A". -/
theorem claim_untrimmed_token_edge :
    validate_dependencies [⟨"A", "a", none⟩, ⟨"B", "b", some " A"⟩] = [] ∧
    (build_dependency_graph (process_jobs_from_input
      [⟨"A", "a", none⟩, ⟨"B", "b", some " A"⟩])).1.edges = [(" A", "B")] ∧
    " A" ∈ (build_dependency_graph (process_jobs_from_input
      [⟨"A", "a", none⟩, ⟨"B", "b", some " A"⟩])).1.nodes ∧
    ("A", "B") ∉ (build_dependency_graph (process_jobs_from_input
      [⟨"A", "a", none⟩, ⟨"B", "b", some " A"⟩])).1.edges ∧
    pyStrip " A" = "A" := by
  refine ⟨rfl, rfl, by decide, by decide, rfl⟩

/-- C1: for every job list whose built dependency graph is acyclic (so
that `assign_layers` succeeds), every edge `u -> v` of the built graph
satisfies `layer[u] < layer[v]` in the computed pre-offset layer
assignment. -/
theorem claim_layer_lt_of_edge (jobs : List Job)
    (layers : List (String × Nat))
    (h : assign_layers (build_dependency_graph jobs).1 = Except.ok layers) :
    ∀ u v, (u, v) ∈ (build_dependency_graph jobs).1.edges →
      ∃ lu lv, alistGet layers u = some lu ∧ alistGet layers v = some lv ∧
        lu < lv := by
  have hwf := build_wf jobs
  rcases assign_layers_ok_spec hwf h with ⟨_, hspec⟩
  intro u v huv
  have hv : v ∈ (build_dependency_graph jobs).1.nodes := (hwf.2 (u, v) huv).2
  have hu : u ∈ preds (build_dependency_graph jobs).1 v := mem_preds.mpr huv
  have hdeg : inDegree (build_dependency_graph jobs).1 v ≠ 0 := by
    unfold inDegree
    intro h0
    rw [List.length_eq_zero] at h0
    rw [h0] at hu
    simp at hu
  rcases (hspec v hv).2 hdeg with ⟨ls, hls, hvl⟩
  rcases optMapM_mem_some hls u hu with ⟨lu, hlu, hmem⟩
  exact ⟨lu, maxNat ls + 1, hlu, hvl,
    Nat.lt_succ_of_le (le_maxNat_of_mem hmem)⟩

/-- Witness for C1 at the spec's Scenario A, on the edge from Compile
to Link: layer 0 is below layer 1. -/
theorem claim_layer_lt_of_edge_witness :
    ∃ lu lv,
      alistGet [("A", 0), ("B", 1), ("C", 2)] "A" = some lu ∧
      alistGet [("A", 0), ("B", 1), ("C", 2)] "B" = some lv ∧ lu < lv :=
  claim_layer_lt_of_edge
    [("A", "Compile", []), ("B", "Link", ["A"]), ("C", "Test", ["B"])]
    [("A", 0), ("B", 1), ("C", 2)] rfl "A" "B" (by decide)

/-- C2: in a well-formed acyclic graph (so that `assign_layers`
succeeds), a node's pre-offset layer is 0 exactly when it has no
incoming edges, and a node with at least one incoming edge gets layer
`max + 1` over the layers of its direct predecessors. -/
theorem claim_layer_zero_iff (G : DiGraph) (layers : List (String × Nat))
    (hwf : WF G) (h : assign_layers G = Except.ok layers) :
    ∀ v ∈ G.nodes,
      (alistGet layers v = some 0 ↔ ∀ p, (p, v) ∉ G.edges) ∧
      ((∃ p, (p, v) ∈ G.edges) →
        ∃ ls, optMapM (alistGet layers) (preds G v) = some ls ∧ ls ≠ [] ∧
          alistGet layers v = some (maxNat ls + 1)) := by
  rcases assign_layers_ok_spec hwf h with ⟨_, hspec⟩
  intro v hv
  rcases hspec v hv with ⟨hzero, hsucc⟩
  constructor
  · constructor
    · intro h0
      rw [← inDegree_eq_zero_iff]
      by_contra hdeg
      rcases hsucc hdeg with ⟨ls, _, hvl⟩
      rw [hvl] at h0
      injection h0 with h0
      exact Nat.succ_ne_zero _ h0
    · intro hno
      exact hzero (inDegree_eq_zero_iff.mpr hno)
  · intro hsome
    have hdeg : inDegree G v ≠ 0 := by
      intro h0
      rcases hsome with ⟨p, hp⟩
      exact inDegree_eq_zero_iff.mp h0 p hp
    rcases hsucc hdeg with ⟨ls, hls, hvl⟩
    refine ⟨ls, hls, ?_, hvl⟩
    have hpne : preds G v ≠ [] := by
      intro hpe
      apply hdeg
      unfold inDegree
      rw [hpe]
      rfl
    rcases List.exists_mem_of_ne_nil _ hpne with ⟨p, hp⟩
    rcases optMapM_mem_some hls p hp with ⟨b, _, hb⟩
    exact List.ne_nil_of_mem hb

/-- Witness for C2 at the spec's Scenario D, on the node C with the two
predecessors A and B: its layer is not 0 and equals max plus one. -/
theorem claim_layer_zero_iff_witness :
    (alistGet [("A", 0), ("B", 0), ("C", 1)] "C" = some 0 ↔
      ∀ p, (p, "C") ∉
        (DiGraph.mk ["A", "B", "C"] [("A", "C"), ("B", "C")]).edges) ∧
    ((∃ p, (p, "C") ∈
        (DiGraph.mk ["A", "B", "C"] [("A", "C"), ("B", "C")]).edges) →
      ∃ ls,
        optMapM (alistGet [("A", 0), ("B", 0), ("C", 1)])
          (preds (DiGraph.mk ["A", "B", "C"] [("A", "C"), ("B", "C")]) "C")
          = some ls ∧ ls ≠ [] ∧
        alistGet [("A", 0), ("B", 0), ("C", 1)] "C" = some (maxNat ls + 1)) :=
  claim_layer_zero_iff (DiGraph.mk ["A", "B", "C"] [("A", "C"), ("B", "C")])
    [("A", 0), ("B", 0), ("C", 1)]
    ⟨by decide, by decide⟩ rfl "C" (by decide)

/-- C4: when the built dependency graph admits no topological order (it
contains a cycle), `assign_layers` fails with the distinct
`NetworkXUnfeasible` cycle error raised by `nx.topological_sort`, and
produces no layer assignment. -/
theorem claim_cycle_error (jobs : List Job)
    (h : ¬ ∃ l, IsTopoOrder (build_dependency_graph jobs).1 l) :
    assign_layers (build_dependency_graph jobs).1 =
      Except.error "Graph contains a cycle or graph changed during iteration" := by
  unfold assign_layers
  rw [nx_topological_sort_none (build_wf jobs) h]

/-- Witness for C4 at the spec's Scenario C: two mutually dependent
jobs form a cycle, so no topological order exists. -/
theorem claim_cycle_error_witness :
    assign_layers
      (build_dependency_graph [("A", "a", ["B"]), ("B", "b", ["A"])]).1 =
      Except.error "Graph contains a cycle or graph changed during iteration" :=
  claim_cycle_error [("A", "a", ["B"]), ("B", "b", ["A"])]
    (by
      rintro ⟨l, _, _, hidx⟩
      have h1 := hidx "A" "B" (by decide)
      have h2 := hidx "B" "A" (by decide)
      omega)

/-- C8: for one accepted snapshot, any two orientations produce the same
ordered `(Layer, Job ID, Name)` table and the same node labels; the
orientation enters only the rendered coordinates. -/
theorem claim_orientation_table_invariant (rows : List Row)
    (o1 o2 : Orientation) :
    (visualize_jobs rows o1).map (fun r => (r.1, r.2.2))
      = (visualize_jobs rows o2).map (fun r => (r.1, r.2.2)) := by
  simp only [visualize_jobs]
  cases assign_layers (build_dependency_graph
    (process_jobs_from_input rows)).1 <;> rfl

/-- C7: whenever the validator reports at least one invalid dependency,
the generate click is a hard gate: the snapshot is kept, the updated
flag is cleared so the rendering block builds no graph and runs no
layering, the emitted message is the enumeration built from the full
report, and (with distinct job IDs) that report lists, per offending
job, all of its invalid trimmed tokens. -/
theorem claim_invalid_report_gate (st : AppState) (edited0 : List RawRow)
    (o : Orientation)
    (hnv : validate_dependencies (dropIncomplete edited0) ≠ [])
    (hnd : (job_ids_of (dropIncomplete edited0)).Nodup) :
    (generate_click st edited0).1.jobs_df = st.jobs_df ∧
    (generate_click st edited0).1.jobs_updated = false ∧
    render_step (generate_click st edited0).1 o = none ∧
    (generate_click st edited0).2 = Output.errorText
      (mkErrorMessage (validate_dependencies (dropIncomplete edited0))) ∧
    ∀ r ∈ dropIncomplete edited0,
      invalidDepsOf (job_ids_of (dropIncomplete edited0)) r ≠ [] →
        alistGet (validate_dependencies (dropIncomplete edited0)) r.jobId
          = some (invalidDepsOf (job_ids_of (dropIncomplete edited0)) r) := by
  have hne : (dropIncomplete edited0).isEmpty = false := by
    rcases hcase : dropIncomplete edited0 with _ | ⟨r, rs⟩
    · exfalso
      apply hnv
      rw [hcase]
      rfl
    · rfl
  have hgen : generate_click st edited0 =
      ({ st with jobs_updated := false },
        Output.errorText (mkErrorMessage
          (validate_dependencies (dropIncomplete edited0)))) := by
    simp only [generate_click]
    rw [hne]
    simp only [Bool.false_eq_true, if_false, hnv, if_false]
  refine ⟨by rw [hgen], by rw [hgen], ?_, by rw [hgen], ?_⟩
  · rw [hgen]
    simp [render_step]
  · intro r hr hi
    have hmem := valFold_mem (job_ids_of (dropIncomplete edited0))
      (dropIncomplete edited0) [] r hr hnd rfl
    unfold validate_dependencies
    rw [hmem, if_neg hi]

/-- Witness for C7: job X references the undefined job Y; the state
with an accepted snapshot A is left untouched and nothing is rendered. -/
theorem claim_invalid_report_gate_witness :
    (generate_click ⟨[⟨"A", "a", none⟩], true⟩
      [⟨some "X", some "x", some "Y"⟩]).1.jobs_df = [⟨"A", "a", none⟩] ∧
    (generate_click ⟨[⟨"A", "a", none⟩], true⟩
      [⟨some "X", some "x", some "Y"⟩]).1.jobs_updated = false ∧
    render_step (generate_click ⟨[⟨"A", "a", none⟩], true⟩
      [⟨some "X", some "x", some "Y"⟩]).1 Orientation.TB = none ∧
    (generate_click ⟨[⟨"A", "a", none⟩], true⟩
      [⟨some "X", some "x", some "Y"⟩]).2 = Output.errorText
      (mkErrorMessage (validate_dependencies
        (dropIncomplete [⟨some "X", some "x", some "Y"⟩]))) ∧
    ∀ r ∈ dropIncomplete [⟨some "X", some "x", some "Y"⟩],
      invalidDepsOf (job_ids_of
        (dropIncomplete [⟨some "X", some "x", some "Y"⟩])) r ≠ [] →
        alistGet (validate_dependencies
            (dropIncomplete [⟨some "X", some "x", some "Y"⟩])) r.jobId
          = some (invalidDepsOf (job_ids_of
            (dropIncomplete [⟨some "X", some "x", some "Y"⟩])) r) :=
  claim_invalid_report_gate ⟨[⟨"A", "a", none⟩], true⟩
    [⟨some "X", some "x", some "Y"⟩] Orientation.TB (by decide) (by decide)

/-! Duplicate-edge lemmas for C9. -/

theorem depStep_edges_mono {jid : String} {g : DiGraph}
    {e : String × String} (dep : String) (h : e ∈ g.edges) :
    e ∈ (depStep jid g dep).edges := by
  unfold depStep
  by_cases hd : dep = ""
  · simpa [hd] using h
  · simp only [hd, if_false]
    exact mem_edges_addEdge_iff.mpr (Or.inl h)

theorem depStep_empty (jid : String) (g : DiGraph) :
    depStep jid g "" = g := by
  unfold depStep
  rw [if_pos rfl]

theorem depFold_eq_of_mem (jid : String) (g : DiGraph)
    (d1 d2 : List String) (dep : String) (hdep : dep ∈ d1) :
    (d1 ++ dep :: d2).foldl (depStep jid) g
      = (d1 ++ d2).foldl (depStep jid) g := by
  by_cases hd : dep = ""
  · subst hd
    rw [List.foldl_append, List.foldl_cons, depStep_empty, ← List.foldl_append]
  · rcases List.append_of_mem hdep with ⟨e1, e2, rfl⟩
    have hP1 : dep ∈ (depStep jid (e1.foldl (depStep jid) g) dep).nodes ∧
        jid ∈ (depStep jid (e1.foldl (depStep jid) g) dep).nodes ∧
        (dep, jid) ∈ (depStep jid (e1.foldl (depStep jid) g) dep).edges := by
      unfold depStep
      rw [if_neg hd]
      exact ⟨mem_nodes_addEdge_left _ dep jid, mem_nodes_addEdge_right _ dep jid,
        mem_edges_addEdge_self _ dep jid⟩
    have hP2 := foldl_preserve (depStep jid)
      (fun g' => dep ∈ g'.nodes ∧ jid ∈ g'.nodes ∧ (dep, jid) ∈ g'.edges)
      (fun g' x hg' => ⟨depStep_nodes_mono x hg'.1, depStep_nodes_mono x hg'.2.1,
        depStep_edges_mono x hg'.2.2⟩)
      e2 _ hP1
    have hstep2 : depStep jid
        (e2.foldl (depStep jid) (depStep jid (e1.foldl (depStep jid) g) dep)) dep
        = e2.foldl (depStep jid) (depStep jid (e1.foldl (depStep jid) g) dep) := by
      unfold depStep
      rw [if_neg hd]
      exact addEdge_eq_self hP2.1 hP2.2.1 hP2.2.2
    calc ((e1 ++ dep :: e2) ++ dep :: d2).foldl (depStep jid) g
        = d2.foldl (depStep jid) (depStep jid
            ((e1 ++ dep :: e2).foldl (depStep jid) g) dep) := by
          rw [List.foldl_append, List.foldl_cons]
      _ = d2.foldl (depStep jid) (depStep jid (e2.foldl (depStep jid)
            (depStep jid (e1.foldl (depStep jid) g) dep)) dep) := by
          rw [List.foldl_append, List.foldl_cons]
      _ = d2.foldl (depStep jid) (e2.foldl (depStep jid)
            (depStep jid (e1.foldl (depStep jid) g) dep)) := by rw [hstep2]
      _ = ((e1 ++ dep :: e2) ++ d2).foldl (depStep jid) g := by
          rw [List.append_assoc, List.foldl_append, List.foldl_append,
            List.foldl_cons]

theorem addJob_dup (acc : DiGraph × List (String × String))
    (jid name dep : String) (d1 d2 : List String) (hdep : dep ∈ d1) :
    addJob acc (jid, name, d1 ++ dep :: d2)
      = addJob acc (jid, name, d1 ++ d2) := by
  simp only [addJob]
  rw [depFold_eq_of_mem jid _ d1 d2 dep hdep]

/-- C9: declaring a dependency token again after an earlier occurrence
in the same job leaves the built graph, the name mapping and the layer
assignment unchanged: the duplicate edge insertion is absorbed by the
graph, so duplicates carry no semantic weight. -/
theorem claim_duplicate_edge (pre post : List Job)
    (jid name dep : String) (d1 d2 : List String) (hdep : dep ∈ d1) :
    build_dependency_graph (pre ++ (jid, name, d1 ++ dep :: d2) :: post)
      = build_dependency_graph (pre ++ (jid, name, d1 ++ d2) :: post) ∧
    assign_layers (build_dependency_graph
        (pre ++ (jid, name, d1 ++ dep :: d2) :: post)).1
      = assign_layers (build_dependency_graph
        (pre ++ (jid, name, d1 ++ d2) :: post)).1 := by
  have hg : build_dependency_graph (pre ++ (jid, name, d1 ++ dep :: d2) :: post)
      = build_dependency_graph (pre ++ (jid, name, d1 ++ d2) :: post) := by
    unfold build_dependency_graph
    rw [List.foldl_append, List.foldl_cons, addJob_dup _ _ _ _ _ _ hdep,
      ← List.foldl_cons, ← List.foldl_append]
  exact ⟨hg, by rw [hg]⟩

/-- Witness for C9: declaring the dependency A twice for job B is the
same as declaring it once. -/
theorem claim_duplicate_edge_witness :
    build_dependency_graph
        [("A", "a", []), ("B", "b", ["A"] ++ "A" :: [])]
      = build_dependency_graph [("A", "a", []), ("B", "b", ["A"] ++ [])] ∧
    assign_layers (build_dependency_graph
        [("A", "a", []), ("B", "b", ["A"] ++ "A" :: [])]).1
      = assign_layers (build_dependency_graph
        [("A", "a", []), ("B", "b", ["A"] ++ [])]).1 :=
  claim_duplicate_edge [("A", "a", [])] [] "B" "b" "A" ["A"] [] (by decide)

/-! Lemmas for C10: duplicated job IDs. -/

theorem countKey_eq_zero_of_not_mem {l : List String} {i : String}
    (h : i ∉ l) : countKey l i = 0 := by
  unfold countKey
  rw [List.length_eq_zero, List.filter_eq_nil]
  intro x hx
  simp only [decide_eq_true_eq]
  intro hxi
  exact h (hxi ▸ hx)

theorem countKey_eq_one_of_nodup_mem {l : List String} {i : String}
    (hnd : l.Nodup) (h : i ∈ l) : countKey l i = 1 := by
  induction l with
  | nil => simp at h
  | cons x xs ih =>
    rw [List.nodup_cons] at hnd
    unfold countKey
    rw [List.filter_cons]
    by_cases hx : x = i
    · subst hx
      simp only [decide_True, if_true, List.length_cons]
      have : countKey xs x = 0 := countKey_eq_zero_of_not_mem hnd.1
      unfold countKey at this
      rw [this]
    · simp only [hx, decide_False, if_false]
      rcases List.mem_cons.mp h with h | h
      · exact absurd h.symm hx
      · exact ih hnd.2 h

theorem countKey_perm {l l' : List String} (i : String) (h : l.Perm l') :
    countKey l i = countKey l' i := by
  unfold countKey
  exact (h.filter _).length_eq

theorem insertByLayer_perm (x : String × Nat) :
    ∀ acc : List (String × Nat), (insertByLayer acc x).Perm (x :: acc) := by
  intro acc
  induction acc with
  | nil => exact List.Perm.refl _
  | cons y ys ih =>
    unfold insertByLayer
    by_cases hx : x.2 < y.2
    · rw [if_pos hx]
    · rw [if_neg hx]
      exact (ih.cons y).trans (List.Perm.swap x y ys)

theorem sortByLayer_perm (l : List (String × Nat)) :
    (sortByLayer l).Perm l := by
  have key : ∀ (rest acc : List (String × Nat)),
      (rest.foldl insertByLayer acc).Perm (acc ++ rest) := by
    intro rest
    induction rest with
    | nil => intro acc; simp
    | cons x xs ih =>
      intro acc
      rw [List.foldl_cons]
      refine ((ih (insertByLayer acc x)).trans ?_)
      refine (List.Perm.append_right xs (insertByLayer_perm x acc)).trans ?_
      exact List.perm_middle.symm
  simpa using key l []

theorem offsetLayers_keys (l : List (String × Nat)) :
    (offsetLayers l).map Prod.fst = l.map Prod.fst := by
  unfold offsetLayers
  rw [List.map_map]
  rfl

theorem buildNm (jobs : List Job) :
    ∀ acc : DiGraph × List (String × String),
      (jobs.foldl addJob acc).2
        = jobs.foldl (fun nm j => dictSet nm j.1 j.2.1) acc.2 := by
  induction jobs with
  | nil => intro acc; rfl
  | cons j js ih =>
    intro acc
    rw [List.foldl_cons, List.foldl_cons, ih]
    rfl

theorem nmFold_preserve (i : String) :
    ∀ (l : List Job) (nm : List (String × String)),
      (∀ j ∈ l, j.1 ≠ i) →
      alistGet (l.foldl (fun nm j => dictSet nm j.1 j.2.1) nm) i
        = alistGet nm i := by
  intro l
  induction l with
  | nil => intro nm _; rfl
  | cons j js ih =>
    intro nm h
    rw [List.foldl_cons, ih _ (fun j' hj' => h j' (List.mem_cons_of_mem j hj'))]
    exact dictSet_get_other nm _ (h j (List.mem_cons_self j js))

theorem build_name_last (jobs1 jobs2 : List Job) (i n : String)
    (d : List String) (h2 : ∀ j ∈ jobs2, j.1 ≠ i) :
    alistGet (build_dependency_graph (jobs1 ++ (i, n, d) :: jobs2)).2 i
      = some n := by
  unfold build_dependency_graph
  rw [buildNm, List.foldl_append, List.foldl_cons, nmFold_preserve i _ _ h2]
  exact dictSet_get_self _ i n

theorem tableFilter_length (nm : List (String × String)) (i : String) :
    ∀ l : List (String × Nat),
      ((l.map (fun p => ((p.2, p.1, alistGet nm p.1) : TableRow))).filter
        (fun row => row.2.1 = i)).length
        = countKey (l.map Prod.fst) i := by
  intro l
  induction l with
  | nil => rfl
  | cons p ps ih =>
    rw [List.map_cons, List.filter_cons, List.map_cons]
    unfold countKey
    rw [List.filter_cons]
    by_cases hp : p.1 = i
    · simp only [hp, decide_True, if_true, List.length_cons]
      unfold countKey at ih
      rw [← ih]
    · simp only [hp, decide_False, if_false]
      exact ih

/-- C10: when the same job ID appears on several rows, the built graph
has exactly one node for it carrying the last row's display name (in
the name mapping and hence in the drawn labels), the ID gets exactly
one layer entry, and the ordered table has exactly one row for it,
whose Name column is the last row's name. -/
theorem claim_duplicate_id (pre mid post : List Row) (i n1 n2 : String)
    (t1 t2 : Option String) (o : Orientation)
    (hpost : ∀ r ∈ post, r.jobId ≠ i) :
    countKey (build_dependency_graph (process_jobs_from_input
      (pre ++ ⟨i, n1, t1⟩ :: mid ++ ⟨i, n2, t2⟩ :: post))).1.nodes i = 1 ∧
    alistGet (build_dependency_graph (process_jobs_from_input
      (pre ++ ⟨i, n1, t1⟩ :: mid ++ ⟨i, n2, t2⟩ :: post))).2 i = some n2 ∧
    (∀ layers,
      assign_layers (build_dependency_graph (process_jobs_from_input
        (pre ++ ⟨i, n1, t1⟩ :: mid ++ ⟨i, n2, t2⟩ :: post))).1
        = Except.ok layers →
      countKey (layers.map Prod.fst) i = 1) ∧
    (∀ table pos labels,
      visualize_jobs (pre ++ ⟨i, n1, t1⟩ :: mid ++ ⟨i, n2, t2⟩ :: post) o
        = Except.ok (table, pos, labels) →
      (table.filter (fun row => row.2.1 = i)).length = 1 ∧
      (∀ row ∈ table, row.2.1 = i → row.2.2 = some n2) ∧
      (i, n2) ∈ labels) := by
  have hshape : process_jobs_from_input
      (pre ++ ⟨i, n1, t1⟩ :: mid ++ ⟨i, n2, t2⟩ :: post)
      = (process_jobs_from_input pre ++ (i, n1, splitDeps t1) ::
          process_jobs_from_input mid) ++ (i, n2, splitDeps t2) ::
          process_jobs_from_input post := by
    unfold process_jobs_from_input
    simp
  have hpost' : ∀ j ∈ process_jobs_from_input post, j.1 ≠ i := by
    intro j hj
    unfold process_jobs_from_input at hj
    rcases List.mem_map.mp hj with ⟨r, hr, rfl⟩
    exact hpost r hr
  have hname : alistGet (build_dependency_graph (process_jobs_from_input
      (pre ++ ⟨i, n1, t1⟩ :: mid ++ ⟨i, n2, t2⟩ :: post))).2 i = some n2 := by
    rw [hshape]
    exact build_name_last _ _ i n2 (splitDeps t2) hpost'
  have hmem_jobs : ((i, n2, splitDeps t2) : Job) ∈ process_jobs_from_input
      (pre ++ ⟨i, n1, t1⟩ :: mid ++ ⟨i, n2, t2⟩ :: post) := by
    rw [hshape]
    exact List.mem_append_right _ (List.mem_cons_self _ _)
  have hwf := build_wf (process_jobs_from_input
    (pre ++ ⟨i, n1, t1⟩ :: mid ++ ⟨i, n2, t2⟩ :: post))
  have hmemG : i ∈ (build_dependency_graph (process_jobs_from_input
      (pre ++ ⟨i, n1, t1⟩ :: mid ++ ⟨i, n2, t2⟩ :: post))).1.nodes :=
    mem_nodes_build hmem_jobs
  have hcount : countKey (build_dependency_graph (process_jobs_from_input
      (pre ++ ⟨i, n1, t1⟩ :: mid ++ ⟨i, n2, t2⟩ :: post))).1.nodes i = 1 :=
    countKey_eq_one_of_nodup_mem hwf.1 hmemG
  have hlayers : ∀ layers,
      assign_layers (build_dependency_graph (process_jobs_from_input
        (pre ++ ⟨i, n1, t1⟩ :: mid ++ ⟨i, n2, t2⟩ :: post))).1
        = Except.ok layers →
      countKey (layers.map Prod.fst) i = 1 := by
    intro layers hassign
    rw [countKey_perm i (assign_layers_ok_spec hwf hassign).1]
    exact hcount
  refine ⟨hcount, hname, hlayers, ?_⟩
  intro table pos labels hvis
  simp only [visualize_jobs] at hvis
  rcases hassign : assign_layers (build_dependency_graph
      (process_jobs_from_input
        (pre ++ ⟨i, n1, t1⟩ :: mid ++ ⟨i, n2, t2⟩ :: post))).1 with e | layers0
  · rw [hassign] at hvis
    exact Except.noConfusion hvis
  · simp only [hassign] at hvis
    injection hvis with hvis
    have htab := congrArg (fun x => x.1) hvis
    have hlab := congrArg (fun x => x.2.2) hvis
    simp only at htab hlab
    refine ⟨?_, ?_, ?_⟩
    · rw [← htab, tableFilter_length]
      rw [countKey_perm i ((sortByLayer_perm (offsetLayers layers0)).map
        Prod.fst), offsetLayers_keys]
      exact hlayers layers0 hassign
    · intro row hrow hrowi
      rw [← htab] at hrow
      rcases List.mem_map.mp hrow with ⟨p, _, rfl⟩
      simp only at hrowi ⊢
      rw [hrowi]
      exact hname
    · rw [← hlab]
      unfold drawLabels
      have hmm := List.mem_map_of_mem
        (fun v => (v, (alistGet (build_dependency_graph
          (process_jobs_from_input
            (pre ++ ⟨i, n1, t1⟩ :: mid ++ ⟨i, n2, t2⟩ :: post))).2 v).getD v))
        hmemG
      dsimp only at hmm
      rw [hname, Option.getD_some] at hmm
      exact hmm

/-- Witness for C10: two rows both carry the ID A; the second name a2
wins everywhere and A appears once. -/
theorem claim_duplicate_id_witness :
    countKey (build_dependency_graph (process_jobs_from_input
      [⟨"A", "a1", none⟩, ⟨"A", "a2", none⟩])).1.nodes "A" = 1 ∧
    alistGet (build_dependency_graph (process_jobs_from_input
      [⟨"A", "a1", none⟩, ⟨"A", "a2", none⟩])).2 "A" = some "a2" ∧
    (∀ layers,
      assign_layers (build_dependency_graph (process_jobs_from_input
        [⟨"A", "a1", none⟩, ⟨"A", "a2", none⟩])).1 = Except.ok layers →
      countKey (layers.map Prod.fst) "A" = 1) ∧
    (∀ table pos labels,
      visualize_jobs [⟨"A", "a1", none⟩, ⟨"A", "a2", none⟩] Orientation.TB
        = Except.ok (table, pos, labels) →
      (table.filter (fun row => row.2.1 = "A")).length = 1 ∧
      (∀ row ∈ table, row.2.1 = "A" → row.2.2 = some "a2") ∧
      ("A", "a2") ∈ labels) :=
  claim_duplicate_id [] [] [] "A" "a1" "a2" none none Orientation.TB
    (by intro r hr; exact absurd hr (List.not_mem_nil r))

end TaskViz
